import Mathlib

/-!
Verification of the ACV (approximate control variate) sample-allocation core of
`pyapprox/multifidelity/multioutput_monte_carlo.py`.

The Python arrays are embedded as follows: the binary allocation matrix of
shape `(M, 2M)` becomes a function `ℕ → ℕ → Bool` (row, column); integer and
real vectors become `List ℕ` / `List ℚ` read with `List.getD`; numpy fancy
indexing becomes `List.map` over an index list; the numpy RNG becomes an
explicit state `σ` with a draw function `next : σ → ℕ → List ℕ × σ`.
-/

/-! ## Allocation-matrix builders
Source: `_get_allocation_matrix_gmf`, `_get_allocation_matrix_acvis`,
`_get_allocation_matrix_acvrd`.  All three start from the same two steps,
which are shared definitions here exactly as the corresponding loops are
textually identical in the source. -/

/-- Step shared by all builders: `mat[ii, 2*ii+1] = 1`, zeros elsewhere. -/
def unitIndicatorCols : ℕ → ℕ → Bool := fun i j => j == 2 * i + 1

/-- Step shared by all builders: for `ii in range(1, nmodels)`,
`mat[:, 2*ii] = mat[:, recursion_index[ii-1]*2+1]` (even columns `j ≥ 2`
copy the plain column of the recursion parent; odd columns are untouched). -/
def starredCopyCols (ri : ℕ → ℕ) (mat : ℕ → ℕ → Bool) : ℕ → ℕ → Bool :=
  fun i j => if 2 ≤ j ∧ j % 2 = 0 then mat i (ri (j / 2 - 1) * 2 + 1) else mat i j

/-- Row index produced by `np.where(mat[:, j] == 1)[0][-1]` (the last, i.e.
highest, active row of a column; `0` if the column is empty, a case the
source would crash on and which valid inputs never reach). -/
def lastActiveRow (M : ℕ) (col : ℕ → Bool) : ℕ :=
  ((List.range M).filter col).getLastD 0

/-- GMF propagation step: for every column `ii in range(2, 2*nmodels)`,
`II = np.where(mat[:, ii] == 1)[0][-1]; mat[:II, ii] = 1`. -/
def downwardPropagate (M : ℕ) (mat : ℕ → ℕ → Bool) : ℕ → ℕ → Bool :=
  fun i j => if 2 ≤ j ∧ i < lastActiveRow M (fun r => mat r j) then true else mat i j

/-- `_get_allocation_matrix_gmf(recursion_index)` for `M` models, with the
recursion index read as the function `ri` (entry `k` is `ri k`). -/
def allocationMatrixGMF (M : ℕ) (ri : ℕ → ℕ) : ℕ → ℕ → Bool :=
  downwardPropagate M (starredCopyCols ri unitIndicatorCols)

/-- GIS saturation step: for `ii in range(1, nmodels)`,
`mat[:, 2*ii+1] = np.maximum(mat[:, 2*ii], mat[:, 2*ii+1])` (odd columns
`j ≥ 3` become the elementwise max of themselves and column `j-1`). -/
def plainSaturate (mat : ℕ → ℕ → Bool) : ℕ → ℕ → Bool :=
  fun i j => if j % 2 = 1 ∧ 3 ≤ j then mat i (j - 1) || mat i j else mat i j

/-- `_get_allocation_matrix_acvis(recursion_index)` (the GIS policy). -/
def allocationMatrixGIS (ri : ℕ → ℕ) : ℕ → ℕ → Bool :=
  plainSaturate (starredCopyCols ri unitIndicatorCols)

/-- `_get_allocation_matrix_acvrd(recursion_index)` (the GRD policy). -/
def allocationMatrixGRD (ri : ℕ → ℕ) : ℕ → ℕ → Bool :=
  starredCopyCols ri unitIndicatorCols

/-- Row index described by the spec text for the GMF propagation step:
the lowest-indexed active row of a column. -/
def firstActiveRow (M : ℕ) (col : ℕ → Bool) : ℕ :=
  ((List.range M).filter col).headD 0

/-- Spec wording of the GMF propagation step, for the refinement comparison:
mark all rows below the lowest-indexed active row of each column `c ≥ 2`. -/
def downwardPropagateLowest (M : ℕ) (mat : ℕ → ℕ → Bool) : ℕ → ℕ → Bool :=
  fun i j => if 2 ≤ j ∧ i < firstActiveRow M (fun r => mat r j) then true else mat i j

/-- Spec wording of the full GMF construction, for the refinement comparison
(unit plain columns, starred copies, then the lowest-active-row propagation). -/
def allocationMatrixGMFLowest (M : ℕ) (ri : ℕ → ℕ) : ℕ → ℕ → Bool :=
  downwardPropagateLowest M (starredCopyCols ri unitIndicatorCols)

/-- The three construction policies of the estimator subclasses
`GMFEstimator`, `GISEstimator`, `GRDEstimator`. -/
inductive AllocationPolicy
  | gmf
  | gis
  | grd

/-- Dispatch of `_create_allocation_matrix` over the three subclasses. -/
def allocationMatrix : AllocationPolicy → ℕ → (ℕ → ℕ) → ℕ → ℕ → Bool
  | .gmf, M, ri => allocationMatrixGMF M ri
  | .gis, _, ri => allocationMatrixGIS ri
  | .grd, _, ri => allocationMatrixGRD ri

/-! ## Control-variate weights
Source: `CVEstimator._weights`. -/

/-- `CVEstimator._weights(CF, cf) = -torch.linalg.multi_dot((torch.linalg.pinv(CF), cf.T)).T`.
`torch.linalg.pinv` is a library routine external to the repository, so the
pseudo-inverse enters as the function parameter `pinv`; `nstats` is the
statistic dimension and `M` the number of models, so `cf` has shape
`(nstats, nstats*(M-1))` and `CF` is square of size `nstats*(M-1)`. -/
def cvEstimatorWeights {nstats M : ℕ}
    (pinv : Matrix (Fin (nstats * (M - 1))) (Fin (nstats * (M - 1))) ℚ →
      Matrix (Fin (nstats * (M - 1))) (Fin (nstats * (M - 1))) ℚ)
    (CF : Matrix (Fin (nstats * (M - 1))) (Fin (nstats * (M - 1))) ℚ)
    (cf : Matrix (Fin nstats) (Fin (nstats * (M - 1))) ℚ) :
    Matrix (Fin nstats) (Fin (nstats * (M - 1))) ℚ :=
  (-(pinv CF * cf.transpose)).transpose

/-! ## BestEstimator kwargs validation
Source: `BestEstimator._validate_kwargs`. -/

/-- Failure raised by `BestEstimator._validate_kwargs` for a recursion index
that cannot be truncated to a model subset. -/
inductive KwargsError
  | invalidRecursionIndex

/-- Recursion-index handling of `BestEstimator._validate_kwargs(nsubset_lfmodels)`:
accept the index when it is `np.arange(len(index))` or all zeros (truncating to
the first `nsubset_lfmodels` entries), raise `ValueError` otherwise.
`np.allclose` on integer vectors is elementwise equality. -/
def validateRecursionIndexKwarg (index : List ℕ) (nsubsetLfmodels : ℕ) :
    Except KwargsError (List ℕ) :=
  if index = List.range index.length ∨ ∀ x ∈ index, x = 0 then
    Except.ok (index.take nsubsetLfmodels)
  else Except.error KwargsError.invalidRecursionIndex

/-! ## Estimator construction
Source: `ACVEstimator.__init__` and `ACVEstimator._set_recursion_index`. -/

/-- Errors raised by `ACVEstimator.__init__` / `_set_recursion_index`. -/
inductive InitError
  | treeDepthAndRecursionIndex
  | wrongRecursionIndexShape

/-- `ACVEstimator._set_recursion_index(index)`: a `None` index defaults to
`np.zeros(nmodels-1)`, a wrongly sized index raises, otherwise the index is
kept and the allocation matrix is built from it. -/
def setRecursionIndex (M : ℕ) (index : Option (List ℕ)) : Except InitError (List ℕ) :=
  let idx := match index with
    | none => List.replicate (M - 1) 0
    | some l => l
  if idx.length ≠ M - 1 then Except.error InitError.wrongRecursionIndexShape
  else Except.ok idx

/-- Recursion-index part of `ACVEstimator.__init__`: specifying both
`tree_depth` and `recursion_index` raises; with `tree_depth = None`,
`_set_recursion_index` runs and `_create_allocation_matrix` (dispatched on the
subclass policy) builds the allocation matrix.  Returns the frozen recursion
index together with the matrix, or `none` when the matrix is deferred to the
tree-depth sweep. -/
def acvEstimatorInitAllocation (pol : AllocationPolicy) (M : ℕ)
    (recursionIndex : Option (List ℕ)) (treeDepth : Option ℕ) :
    Except InitError (Option (List ℕ × (ℕ → ℕ → Bool))) :=
  match treeDepth, recursionIndex with
  | some _, some _ => Except.error InitError.treeDepthAndRecursionIndex
  | some _, none => Except.ok none
  | none, idx =>
      match setRecursionIndex M idx with
      | Except.error e => Except.error e
      | Except.ok l => Except.ok (some (l, allocationMatrix pol M (fun k => l.getD k 0)))

/-! ## The recursion-index sweep
Source: `ACVEstimator._allocate_samples_for_all_recursion_indices`.  The inner
nonlinear optimization `_allocate_samples_for_single_recursion` is abstracted
as a function `opt` returning the achieved criterion, `none` when the solver
raises `RuntimeError`. -/

/-- Criterion values as the sweep sees them: a finite value or `np.inf`. -/
inductive CritVal
  | inf
  | val (c : ℚ)

/-- The `<` comparison used by the sweep (`np.inf` is less than nothing). -/
def critLT : CritVal → CritVal → Bool
  | CritVal.inf, _ => false
  | CritVal.val _, CritVal.inf => true
  | CritVal.val a, CritVal.val b => decide (a < b)

/-- Errors of `_allocate_samples_for_all_recursion_indices`: the solver's
`RuntimeError` re-raised when failures are not allowed, and the final
`RuntimeError("No solutions were found")`. -/
inductive SweepError
  | optimizerFailed
  | noSolutionsFound

/-- State threaded through the recursion-index sweep: `best_criteria`,
`best_result` (kept here as the index and its achieved criterion), and the
estimator's `_optimized_criteria` field. -/
structure SweepState (ι : Type) where
  bestCriteria : CritVal
  bestResult : Option (ι × CritVal)
  optimizedCriteria : CritVal

/-- Tail of each sweep iteration: `if self._optimized_criteria < best_criteria:
best_result = [...]; best_criteria = self._optimized_criteria`. -/
def sweepUpdateBest {ι : Type} (index : ι) (st : SweepState ι) : SweepState ι :=
  if critLT st.optimizedCriteria st.bestCriteria then
    { st with bestCriteria := st.optimizedCriteria,
              bestResult := some (index, st.optimizedCriteria) }
  else st

/-- One sweep iteration: run the single-recursion optimization; on a solver
failure either re-raise (`allow_failures=False`) or record
`self._optimized_criteria = np.inf`; then update the running best. -/
def sweepStep {ι : Type} (allowFailures : Bool) (opt : ι → Option ℚ)
    (st : SweepState ι) (index : ι) : Except SweepError (SweepState ι) :=
  match opt index with
  | none =>
      if allowFailures then
        Except.ok (sweepUpdateBest index { st with optimizedCriteria := CritVal.inf })
      else Except.error SweepError.optimizerFailed
  | some c =>
      Except.ok (sweepUpdateBest index { st with optimizedCriteria := CritVal.val c })

/-- The `for index in self.get_all_recursion_indices()` loop. -/
def sweepLoop {ι : Type} (allowFailures : Bool) (opt : ι → Option ℚ) :
    SweepState ι → List ι → Except SweepError (SweepState ι)
  | st, [] => Except.ok st
  | st, i :: rest =>
      match sweepStep allowFailures opt st i with
      | Except.error e => Except.error e
      | Except.ok st' => sweepLoop allowFailures opt st' rest

/-- `_allocate_samples_for_all_recursion_indices(target_cost)`: sweep all
recursion indices starting from `best_criteria = np.inf`, `best_result = None`;
raise when no index produced a result. -/
def allocateSamplesAllRecursionIndices {ι : Type} (allowFailures : Bool)
    (opt : ι → Option ℚ) (indices : List ι) : Except SweepError (ι × CritVal) :=
  match sweepLoop allowFailures opt
      { bestCriteria := CritVal.inf, bestResult := none, optimizedCriteria := CritVal.inf }
      indices with
  | Except.error e => Except.error e
  | Except.ok st =>
      match st.bestResult with
      | none => Except.error SweepError.noSolutionsFound
      | some r => Except.ok r

/-! ## Partition accounting: counts, ratios and costs
Source: `ACVEstimator._compute_single_model_nsamples`,
`_partition_ratios_to_model_ratios`,
`_get_num_high_fidelity_samples_from_partition_ratios`,
`_npartition_samples_from_partition_ratios`, `_estimator_cost`,
`_round_partition_ratios`. -/

/-- `np.where((mat[:, 2*ii] == 1) | (mat[:, 2*ii+1] == 1))[0]`: the partitions
active in model `ii`'s starred-or-plain columns, in increasing order. -/
def activePartitions (A : ℕ → ℕ → Bool) (M ii : ℕ) : List ℕ :=
  (List.range M).filter (fun j => A j (2 * ii) || A j (2 * ii + 1))

/-- `_compute_single_model_nsamples(npartition_samples, model_id)` for integer
partition counts. -/
def nsamplesPerModel (A : ℕ → ℕ → Bool) (M : ℕ) (p : List ℕ) (m : ℕ) : ℕ :=
  ((activePartitions A M m).map (fun j => p.getD j 0)).sum

/-- `_compute_single_model_nsamples(npartition_samples, model_id)` for
continuous (rational) partition counts, as used during optimization and
rounding. -/
def nsamplesPerModelQ (A : ℕ → ℕ → Bool) (M : ℕ) (p : List ℚ) (m : ℕ) : ℚ :=
  ((activePartitions A M m).map (fun j => p.getD j 0)).sum

/-- `_estimator_cost(npartition_samples)` and the rounded target cost of
`_round_partition_ratios`: `(nsamples_per_model * costs).sum()`. -/
def estimatorCostQ (A : ℕ → ℕ → Bool) (M : ℕ) (costs p : List ℚ) : ℚ :=
  ((List.range M).map (fun m => nsamplesPerModelQ A M p m * costs.getD m 0)).sum

/-- One entry of `_partition_ratios_to_model_ratios(partition_ratios)`:
`model_ratios[ii-1]` sums the ratios of the partitions `1..M-1` active in model
`ii`'s columns (the slice `allocation_mat[1:, ...]` indexes partition `k+1` at
position `k`), plus 1 when partition 0 is active. -/
def modelRatiosEntry (A : ℕ → ℕ → Bool) (M : ℕ) (ratios : List ℚ) (ii : ℕ) : ℚ :=
  (((List.range (M - 1)).filter
      (fun k => A (k + 1) (2 * ii) || A (k + 1) (2 * ii + 1))).map
    (fun k => ratios.getD k 0)).sum
  + (if A 0 (2 * ii) || A 0 (2 * ii + 1) then 1 else 0)

/-- `_get_num_high_fidelity_samples_from_partition_ratios(target_cost,
partition_ratios) = target_cost / (costs[0] + (model_ratios * costs[1:]).sum())`. -/
def nhfFromPartitionRatios (A : ℕ → ℕ → Bool) (M : ℕ) (costs : List ℚ)
    (targetCost : ℚ) (ratios : List ℚ) : ℚ :=
  targetCost / (costs.getD 0 0 +
    ((List.range (M - 1)).map
      (fun k => modelRatiosEntry A M ratios (k + 1) * costs.getD (k + 1) 0)).sum)

/-- `_npartition_samples_from_partition_ratios(target_cost, partition_ratios)`:
entry 0 is `nhf`, the rest are `partition_ratios * nhf`. -/
def npartitionSamplesFromRatios (A : ℕ → ℕ → Bool) (M : ℕ) (costs : List ℚ)
    (targetCost : ℚ) (ratios : List ℚ) : List ℚ :=
  nhfFromPartitionRatios A M costs targetCost ratios ::
    ratios.map (fun r => r * nhfFromPartitionRatios A M costs targetCost ratios)

/-- Error raised by `_round_partition_ratios` when rounding would zero the
high-fidelity partition count. -/
inductive RoundingError
  | hfSamplesZero

/-- `np.floor(npartition_samples + 1e-8).astype(int)`: the epsilon-tolerant
floor of the continuous partition counts. -/
def flooredPartitionSamples (A : ℕ → ℕ → Bool) (M : ℕ) (costs : List ℚ)
    (targetCost : ℚ) (ratios : List ℚ) : List ℤ :=
  (npartitionSamplesFromRatios A M costs targetCost ratios).map
    (fun x => ⌊x + 1 / 100000000⌋)

/-- `_round_partition_ratios(target_cost, partition_ratios)`: derive the
continuous partition counts, raise when `npartition_samples[0] < 1 - 1e-8`,
floor the counts with the `1e-8` tolerance, and re-derive the rounded ratios
`rounded[1:] / rounded[0]` and the achieved cost from the integer counts. -/
def roundPartitionRatios (A : ℕ → ℕ → Bool) (M : ℕ) (costs : List ℚ)
    (targetCost : ℚ) (ratios : List ℚ) : Except RoundingError (List ℚ × ℚ) :=
  if (npartitionSamplesFromRatios A M costs targetCost ratios).getD 0 0
      < 1 - 1 / 100000000 then
    Except.error RoundingError.hfSamplesZero
  else
    Except.ok
      (((flooredPartitionSamples A M costs targetCost ratios).drop 1).map
        (fun z => (z : ℚ) /
          (((flooredPartitionSamples A M costs targetCost ratios).getD 0 0 : ℤ) : ℚ)),
       estimatorCostQ A M costs
         ((flooredPartitionSamples A M costs targetCost ratios).map (fun z => (z : ℚ))))

/-! ## Separating and combining per-model values
Source: `ACVEstimator._get_partition_indices`,
`_get_partition_indices_per_acv_subset`, `_separate_values_per_model` and the
module-level `_combine_acv_values`. -/

/-- `_get_partition_indices(npartition_samples)`: consecutive index ranges into
the flat pool of independent samples, one range per partition (the `np.split`
of `np.arange(total)` at the rounded cumulative sums; over ℕ the rounding is
exact). -/
def partitionIndicesFrom (off : ℕ) : List ℕ → List (List ℕ)
  | [] => []
  | n :: rest => List.range' off n :: partitionIndicesFrom (off + n) rest

/-- `_get_partition_indices(npartition_samples)`, starting at offset 0. -/
def partitionIndices (p : List ℕ) : List (List ℕ) :=
  partitionIndicesFrom 0 p

/-- The association `idx ↦ subset_indices[idx] = np.arange(lb, ub)` built over
the active partitions of one model, `ub - lb` being the partition size. -/
def subsetIndicesFrom (p : List ℕ) : ℕ → List ℕ → List (ℕ × List ℕ)
  | _, [] => []
  | lb, j :: rest =>
      (j, List.range' lb (p.getD j 0)) :: subsetIndicesFrom p (lb + p.getD j 0) rest

/-- The two index lists `indices_1` (starred column `2*ii`) and `indices_2`
(plain column `2*ii+1`) of one model's acv subsets, as assembled by the
`ii`-loop of `_get_partition_indices_per_acv_subset` (without bootstrap). -/
def acvSubsetIndexPair (A : ℕ → ℕ → Bool) (M : ℕ) (p : List ℕ) (ii : ℕ) :
    List ℕ × List ℕ :=
  ((((List.range M).filter (fun j => A j (2 * ii))).map
      (fun j => ((subsetIndicesFrom p 0 (activePartitions A M ii)).lookup j).getD [])).flatten,
   (((List.range M).filter (fun j => A j (2 * ii + 1))).map
      (fun j => ((subsetIndicesFrom p 0 (activePartitions A M ii)).lookup j).getD [])).flatten)

/-- `_get_partition_indices_per_acv_subset(bootstrap=False)`: the flat list of
`2*M` index lists; entry `2*ii` indexes model `ii`'s starred subset, entry
`2*ii+1` its plain subset; model 0 contributes the empty list and partition
0's range. -/
def partitionIndicesPerAcvSubset (A : ℕ → ℕ → Bool) (M : ℕ) (p : List ℕ) :
    List (List ℕ) :=
  [[], (partitionIndices p).getD 0 []] ++
    ((List.range (M - 1)).map (fun k =>
      [(acvSubsetIndexPair A M p (k + 1)).1, (acvSubsetIndexPair A M p (k + 1)).2])).flatten

/-- `_separate_values_per_model(values_per_model)` (without bootstrap): entry
`k` of the result is `values_per_model[k // 2]` fancy-indexed by the `k`-th
acv-subset index list. -/
def separateValuesPerModel {α : Type} [Inhabited α] (A : ℕ → ℕ → Bool) (M : ℕ)
    (p : List ℕ) (values : List (List α)) : List (List α) :=
  (List.range (2 * M)).map (fun k =>
    ((partitionIndicesPerAcvSubset A M p).getD k []).map
      (fun i => (values.getD (k / 2) []).getD i default))

/-- The slice `acv_values[ii][lb:ub]` of length `n = ub - lb`. -/
def sliceLB {α : Type} (xs : List α) (lb n : ℕ) : List α := (xs.drop lb).take n

/-- The `jj`-loop of `_combine_acv_values` for one model `ii ≥ 1`: walk the
partitions `jj`, keeping cursor `lb` into the starred values and `lb2` into
the plain values; a partition contributes its starred slice when flagged in
column `2*ii`, else its plain slice when flagged in column `2*ii+1` (the plain
cursor advances either way). -/
def combineModelValues {α : Type} (A : ℕ → ℕ → Bool) (p : List ℕ) (ii : ℕ)
    (starred plain : List α) : ℕ → ℕ → List ℕ → List α
  | _, _, [] => []
  | lb, lb2, jj :: rest =>
      if A jj (2 * ii) then
        sliceLB starred lb (p.getD jj 0) ++
          (if A jj (2 * ii + 1) then
            combineModelValues A p ii starred plain (lb + p.getD jj 0)
              (lb2 + p.getD jj 0) rest
          else
            combineModelValues A p ii starred plain (lb + p.getD jj 0) lb2 rest)
      else if A jj (2 * ii + 1) then
        sliceLB plain lb2 (p.getD jj 0) ++
          combineModelValues A p ii starred plain lb (lb2 + p.getD jj 0) rest
      else combineModelValues A p ii starred plain lb lb2 rest

/-- `_combine_acv_values(reorder_allocation_mat, npartition_samples,
acv_values)`: model 0 keeps its plain values; every other model is reassembled
by the `jj`-loop over the `M` partitions. -/
def combineAcvValues {α : Type} (A : ℕ → ℕ → Bool) (M : ℕ) (p : List ℕ)
    (acv : List (List α × List α)) : List (List α) :=
  (acv.getD 0 ([], [])).2 ::
    (List.range (M - 1)).map (fun k =>
      combineModelValues A p (k + 1) (acv.getD (k + 1) ([], [])).1
        (acv.getD (k + 1) ([], [])).2 0 0 (List.range M))

/-- Pair the flat `2*M`-entry output of `_separate_values_per_model` into the
per-model `(starred, plain)` pairs consumed by `_combine_acv_values`. -/
def pairAcvValues {α : Type} (M : ℕ) (flat : List (List α)) :
    List (List α × List α) :=
  (List.range M).map (fun m => (flat.getD (2 * m) [], flat.getD (2 * m + 1) []))

/-- Reference form of one model's separated values, used only in proofs:
walking the active partitions `js` with cursor `lb` into the model's own value
list `v`, collect the slices of the partitions selected by `sel`. -/
def selJoin {α : Type} (sel : ℕ → Bool) (p : List ℕ) (v : List α) :
    ℕ → List ℕ → List α
  | _, [] => []
  | lb, j :: rest =>
      (if sel j then sliceLB v lb (p.getD j 0) else []) ++
        selJoin sel p v (lb + p.getD j 0) rest

/-! ## Bootstrap index permutations
Source: `_get_partition_indices_per_acv_subset(bootstrap=True)`.  The numpy
RNG enters as an abstract state `σ` with a draw function: `next s n` returns
the indices of `np.random.choice(np.arange(n), size=n, replace=True)` together
with the advanced state. -/

/-- Inner loop over one model's active partitions: `subset_indices[idx] =
np.arange(lb, ub)`; a fresh permutation is drawn only when
`random_partition_indices[idx] is None` (and is stored for later models), and
the stored permutation fancy-indexes the partition's index range. -/
def bootSubsetIndices {σ : Type} (next : σ → ℕ → List ℕ × σ) (p : List ℕ) :
    ℕ → (ℕ → Option (List ℕ)) → σ → List ℕ →
      List (ℕ × List ℕ) × (ℕ → Option (List ℕ)) × σ
  | _, asg, s, [] => ([], asg, s)
  | lb, asg, s, idx :: rest =>
      match asg idx with
      | some perm =>
          let r := bootSubsetIndices next p (lb + p.getD idx 0) asg s rest
          ((idx, perm.map (fun t => (List.range' lb (p.getD idx 0)).getD t 0)) :: r.1,
            r.2)
      | none =>
          let drawn := next s (p.getD idx 0)
          let r := bootSubsetIndices next p (lb + p.getD idx 0)
            (fun k => if k = idx then some drawn.1 else asg k) drawn.2 rest
          ((idx, drawn.1.map (fun t => (List.range' lb (p.getD idx 0)).getD t 0)) :: r.1,
            r.2)

/-- Outer loop of `_get_partition_indices_per_acv_subset(bootstrap=True)` over
the models `ii = 1..M-1`, threading the permutation table and the RNG state. -/
def bootModelLoop {σ : Type} (next : σ → ℕ → List ℕ × σ) (p : List ℕ)
    (A : ℕ → ℕ → Bool) (M : ℕ) :
    List ℕ → (ℕ → Option (List ℕ)) → σ →
      List (List (ℕ × List ℕ)) × (ℕ → Option (List ℕ)) × σ
  | [], asg, s => ([], asg, s)
  | ii :: rest, asg, s =>
      let r1 := bootSubsetIndices next p 0 asg s (activePartitions A M ii)
      let r2 := bootModelLoop next p A M rest r1.2.1 r1.2.2
      (r1.1 :: r2.1, r2.2)

/-- `_get_partition_indices_per_acv_subset(bootstrap=True)`: partition 0's
permutation is drawn first and permutes model 0's plain subset, then each
further model's active partitions are walked.  Returns model 0's permuted
subset, the per-model `subset_indices` associations, the final permutation
table `random_partition_indices` and the final RNG state. -/
def bootstrapSubsetIndices {σ : Type} (next : σ → ℕ → List ℕ × σ) (p : List ℕ)
    (A : ℕ → ℕ → Bool) (M : ℕ) (s : σ) :
    List ℕ × List (List (ℕ × List ℕ)) × (ℕ → Option (List ℕ)) × σ :=
  let drawn0 := next s (p.getD 0 0)
  let r := bootModelLoop next p A M (List.range' 1 (M - 1))
    (fun k => if k = 0 then some drawn0.1 else none) drawn0.2
  (drawn0.1.map (fun t => (List.range' 0 (p.getD 0 0)).getD t 0), r)

/-! ## Supporting lemmas on lists -/

theorem beq_nat_eq_decide (a b : ℕ) : (a == b) = decide (a = b) := by
  by_cases h : a = b <;> simp [h]

theorem filter_range_eq_singleton {M u : ℕ} (hu : u < M) (col : ℕ → Bool)
    (hcol : ∀ r, col r = decide (r = u)) :
    (List.range M).filter col = [u] := by
  induction M with
  | zero => omega
  | succ m ih =>
    rw [List.range_succ, List.filter_append]
    rcases Nat.lt_or_ge u m with h | h
    · rw [ih h]
      have hm : List.filter col [m] = [] := by
        have : col m = false := by rw [hcol m]; simp; omega
        simp [this]
      rw [hm, List.append_nil]
    · have hum : u = m := by omega
      have h1 : (List.range m).filter col = [] := by
        rw [List.filter_eq_nil_iff]
        intro a ha
        have : a < m := List.mem_range.mp ha
        rw [hcol a]
        simp
        omega
      have hm : List.filter col [m] = [m] := by
        have : col m = true := by rw [hcol m]; simp [hum]
        simp [this]
      rw [h1, hm, hum]
      rfl

/-- Before the propagation step, every column `2 ≤ j < 2M` of the GMF matrix
has exactly one active row (the unit indicator, or its copy). -/
theorem starredCopy_col_singleton (M : ℕ) (ri : ℕ → ℕ)
    (hri : ∀ k, k < M - 1 → ri k < M) (j : ℕ) (h2 : 2 ≤ j) (hj : j < 2 * M) :
    ∃ u, u < M ∧
      (List.range M).filter (fun r => starredCopyCols ri unitIndicatorCols r j) = [u] := by
  rcases Nat.even_or_odd j with he | ho
  · -- even column `j = 2*ii`, `ii ≥ 1`: a copy of the parent's unit column
    have hmod : j % 2 = 0 := Nat.even_iff.mp he
    refine ⟨ri (j / 2 - 1), hri _ (by omega), ?_⟩
    apply filter_range_eq_singleton (hri _ (by omega))
    intro r
    have : starredCopyCols ri unitIndicatorCols r j
        = unitIndicatorCols r (ri (j / 2 - 1) * 2 + 1) := by
      simp [starredCopyCols, h2, hmod]
    rw [this, unitIndicatorCols, beq_nat_eq_decide]
    exact decide_eq_decide.mpr (by omega)
  · -- odd column `j = 2*ii+1`: the unit indicator of partition `ii`
    have hmod : j % 2 = 1 := Nat.odd_iff.mp ho
    refine ⟨j / 2, by omega, ?_⟩
    apply filter_range_eq_singleton (by omega : j / 2 < M)
    intro r
    have : starredCopyCols ri unitIndicatorCols r j = unitIndicatorCols r j := by
      simp [starredCopyCols]
      omega
    rw [this, unitIndicatorCols, beq_nat_eq_decide]
    exact decide_eq_decide.mpr (by omega)

/-! ## C1 -/

/-- C1: for every recursion index with values in `[0, M-1]`, the GMF builder
returns exactly the matrix produced by the spec's procedure: unit plain
columns, starred columns copied from the parent's plain column, then, for
every column `c ≥ 2`, all rows below the lowest-indexed active row marked
active.  (Before propagation each such column has a single active row, so the
code's highest-active-row variant agrees with the spec's lowest-active-row
wording.) -/
theorem gmf_allocation_matrix_matches_spec_procedure (M : ℕ) (ri : ℕ → ℕ)
    (hri : ∀ k, k < M - 1 → ri k < M) :
    ∀ i, i < M → ∀ j, j < 2 * M →
      allocationMatrixGMF M ri i j = allocationMatrixGMFLowest M ri i j := by
  intro i hi j hj
  show downwardPropagate M (starredCopyCols ri unitIndicatorCols) i j
      = downwardPropagateLowest M (starredCopyCols ri unitIndicatorCols) i j
  by_cases h2 : 2 ≤ j
  · obtain ⟨u, hu, hcol⟩ := starredCopy_col_singleton M ri hri j h2 hj
    have hlast : lastActiveRow M (fun r => starredCopyCols ri unitIndicatorCols r j) = u := by
      rw [lastActiveRow, hcol]; rfl
    have hfirst : firstActiveRow M (fun r => starredCopyCols ri unitIndicatorCols r j) = u := by
      rw [firstActiveRow, hcol]; rfl
    rw [downwardPropagate, downwardPropagateLowest, hlast, hfirst]
  · rw [downwardPropagate, downwardPropagateLowest]
    simp [h2]

theorem gmf_allocation_matrix_matches_spec_procedure_witness :
    (∀ k, k < 3 - 1 → (fun _ : ℕ => 0) k < 3) ∧ 1 < 3 ∧ 4 < 2 * 3 ∧
      allocationMatrixGMF 3 (fun _ => 0) 1 4 = allocationMatrixGMFLowest 3 (fun _ => 0) 1 4 :=
  ⟨by decide, by decide, by decide,
    gmf_allocation_matrix_matches_spec_procedure 3 (fun _ => 0) (by decide) 1 (by decide) 4
      (by decide)⟩

/-! ## C5 -/

/-- C5 counterexample: with `M = 3` and recursion index `[0, 0]`, the GIS
builder's entry at row 1 of plain column 5 differs from the matrix obtained by
running the full GMF construction (including propagation) and then saturating
the plain columns, so GIS does not differ from GMF only by the saturation
step. -/
theorem gis_allocation_differs_from_saturated_gmf :
    allocationMatrixGIS (fun _ => 0) 1 5 ≠
      plainSaturate (allocationMatrixGMF 3 (fun _ => 0)) 1 5 := by decide

/-- C5 amended: the GIS allocation matrix equals the GMF construction with the
downward-propagation step omitted (which is exactly the GRD construction)
followed by saturating each plain column `2m+1` with its starred counterpart
`2m`; i.e. GIS differs from GMF by omitting propagation and adding
saturation. -/
theorem gis_allocation_eq_saturated_unpropagated (ri : ℕ → ℕ) (i j : ℕ) :
    allocationMatrixGIS ri i j = plainSaturate (allocationMatrixGRD ri) i j := rfl

/-! ## C3 -/

/-- C3: the control-variate weights computed by `CVEstimator._weights` (used by
the CV and ACV estimators) equal the transpose of `-pinv(CF) @ cf.T`, of shape
`(nstats, nstats*(M-1))`: equivalently `-cf * pinv(CF)ᵀ`, and entrywise
`w[i,j] = -∑ k, pinv(CF)[j,k] * cf[i,k]`.  The pseudo-inverse enters as a black
box (it is `torch.linalg.pinv`) and no linear solve of `CF` appears. -/
theorem cv_weights_eq_neg_pinv_cf {nstats M : ℕ}
    (pinv : Matrix (Fin (nstats * (M - 1))) (Fin (nstats * (M - 1))) ℚ →
      Matrix (Fin (nstats * (M - 1))) (Fin (nstats * (M - 1))) ℚ)
    (CF : Matrix (Fin (nstats * (M - 1))) (Fin (nstats * (M - 1))) ℚ)
    (cf : Matrix (Fin nstats) (Fin (nstats * (M - 1))) ℚ) :
    cvEstimatorWeights pinv CF cf = (-(pinv CF * cf.transpose)).transpose ∧
    cvEstimatorWeights pinv CF cf = -(cf * (pinv CF).transpose) ∧
    ∀ i j, cvEstimatorWeights pinv CF cf i j = -(∑ k, pinv CF j k * cf i k) := by
  refine ⟨rfl, ?_, ?_⟩
  · rw [cvEstimatorWeights, Matrix.transpose_neg, Matrix.transpose_mul,
      Matrix.transpose_transpose]
  · intro i j
    rw [cvEstimatorWeights]
    simp [Matrix.mul_apply]

/-! ## C9 -/

/-- C9: `BestEstimator._validate_kwargs` accepts an explicit `recursion_index`
keyword exactly when the index equals `[0, 1, 2, ...]` or is all zeros, in
which case it truncates it to the subset size; every other recursion index
raises a `ValueError` (in particular whenever a strict subset of the candidate
pool is being selected). -/
theorem best_estimator_validate_recursion_index (index : List ℕ) (n : ℕ) :
    (validateRecursionIndexKwarg index n = Except.ok (index.take n) ↔
      index = List.range index.length ∨ ∀ x ∈ index, x = 0) ∧
    (¬(index = List.range index.length ∨ ∀ x ∈ index, x = 0) →
      validateRecursionIndexKwarg index n = Except.error KwargsError.invalidRecursionIndex) := by
  constructor
  · constructor
    · intro h
      by_contra hc
      rw [validateRecursionIndexKwarg, if_neg hc] at h
      exact Except.noConfusion h
    · intro h
      rw [validateRecursionIndexKwarg, if_pos h]
  · intro h
    rw [validateRecursionIndexKwarg, if_neg h]

theorem best_estimator_validate_recursion_index_witness :
    validateRecursionIndexKwarg [1, 0] 1 = Except.error KwargsError.invalidRecursionIndex :=
  (best_estimator_validate_recursion_index [1, 0] 1).2 (by decide)

/-! ## C10 -/

/-- C10: constructing an ACV estimator subclass with `recursion_index=None` and
`tree_depth=None` defaults the recursion index to the all-zeros vector of
length `M-1` (every low-fidelity model recurses on the high-fidelity model)
and builds the allocation matrix from that default index. -/
theorem default_recursion_index_all_zeros (pol : AllocationPolicy) (M : ℕ) :
    acvEstimatorInitAllocation pol M none none =
      Except.ok (some (List.replicate (M - 1) 0, allocationMatrix pol M (fun _ => 0))) := by
  have hset : setRecursionIndex M none = Except.ok (List.replicate (M - 1) 0) := by
    rw [setRecursionIndex]
    simp
  have hfun : (fun k => (List.replicate (M - 1) 0).getD k 0) = (fun _ : ℕ => (0 : ℕ)) := by
    funext k
    rcases Nat.lt_or_ge k (M - 1) with h | h
    · rw [List.getD_eq_getElem _ _ (by simpa using h)]
      simp
    · rw [List.getD_eq_default _ _ (by simpa using h)]
  show (match setRecursionIndex M none with
      | Except.error e => Except.error e
      | Except.ok l =>
          Except.ok (some (l, allocationMatrix pol M (fun k => l.getD k 0)))) =
    Except.ok (some (List.replicate (M - 1) 0, allocationMatrix pol M (fun _ => 0)))
  rw [hset]
  show Except.ok (some (List.replicate (M - 1) 0,
      allocationMatrix pol M (fun k => (List.replicate (M - 1) 0).getD k 0))) = _
  rw [hfun]

/-! ## C6 -/

/-- C6: during a sweep over all recursion indices, (a) with
`allow_failures=True` a solver failure at an index records `np.inf` as that
index's criterion and the sweep continues with the best-so-far unchanged;
(b) with `allow_failures=False` the solver failure propagates to the caller;
(c) if every index fails under `allow_failures=True`, the sweep raises the
fatal "No solutions were found" error. -/
theorem recursion_sweep_failure_handling {ι : Type} (opt : ι → Option ℚ) :
    (∀ (st : SweepState ι) (i : ι) (rest : List ι), opt i = none →
      sweepLoop true opt st (i :: rest)
        = sweepLoop true opt { st with optimizedCriteria := CritVal.inf } rest) ∧
    (∀ (st : SweepState ι) (pre : List ι) (i : ι) (post : List ι), opt i = none →
      (∀ j ∈ pre, opt j ≠ none) →
      sweepLoop false opt st (pre ++ i :: post) = Except.error SweepError.optimizerFailed) ∧
    (∀ indices : List ι, (∀ i ∈ indices, opt i = none) →
      allocateSamplesAllRecursionIndices true opt indices
        = Except.error SweepError.noSolutionsFound) := by
  have hstepFail : ∀ (st : SweepState ι) (i : ι), opt i = none →
      sweepStep true opt st i
        = Except.ok { st with optimizedCriteria := CritVal.inf } := by
    intro st i h
    simp [sweepStep, h, sweepUpdateBest, critLT]
  refine ⟨?_, ?_, ?_⟩
  · intro st i rest h
    rw [sweepLoop, hstepFail st i h]
  · intro st pre i post h hpre
    induction pre generalizing st with
    | nil =>
        rw [List.nil_append, sweepLoop, sweepStep, h]
        rfl
    | cons j pre ih =>
        obtain ⟨c, hc⟩ : ∃ c, opt j = some c := by
          cases hcase : opt j with
          | none => exact absurd hcase (hpre j (by simp))
          | some c => exact ⟨c, rfl⟩
        rw [List.cons_append, sweepLoop, sweepStep, hc]
        exact ih _ (fun k hk => hpre k (by simp [hk]))
  · intro indices hall
    have hloop : ∀ (l : List ι) (st : SweepState ι), (∀ i ∈ l, opt i = none) →
        ∃ c, sweepLoop true opt st l
          = Except.ok ⟨st.bestCriteria, st.bestResult, c⟩ := by
      intro l
      induction l with
      | nil => exact fun st _ => ⟨st.optimizedCriteria, rfl⟩
      | cons i rest ih =>
          intro st hl
          rw [sweepLoop, hstepFail st i (hl i (by simp))]
          exact ih _ (fun k hk => hl k (by simp [hk]))
    obtain ⟨c, hc⟩ := hloop indices
      { bestCriteria := CritVal.inf, bestResult := none, optimizedCriteria := CritVal.inf }
      hall
    rw [allocateSamplesAllRecursionIndices, hc]

theorem recursion_sweep_failure_handling_witness :
    allocateSamplesAllRecursionIndices true (fun _ : ℕ => (none : Option ℚ)) [0, 1]
      = Except.error SweepError.noSolutionsFound :=
  (recursion_sweep_failure_handling (fun _ : ℕ => (none : Option ℚ))).2.2 [0, 1]
    (fun _ _ => rfl)

/-! ## Supporting lemmas for the ratio-to-cost computations -/

theorem starredCopyCols_col_zero (ri : ℕ → ℕ) (r : ℕ) :
    starredCopyCols ri unitIndicatorCols r 0 = false := by
  rw [starredCopyCols, if_neg (by omega), unitIndicatorCols, beq_nat_eq_decide]
  simp

theorem starredCopyCols_col_one (ri : ℕ → ℕ) (r : ℕ) :
    starredCopyCols ri unitIndicatorCols r 1 = decide (r = 0) := by
  rw [starredCopyCols, if_neg (by omega), unitIndicatorCols, beq_nat_eq_decide]
  exact decide_eq_decide.mpr (by omega)

theorem allocationMatrix_col_zero (pol : AllocationPolicy) (M : ℕ) (ri : ℕ → ℕ) (r : ℕ) :
    allocationMatrix pol M ri r 0 = false := by
  cases pol
  · show downwardPropagate M (starredCopyCols ri unitIndicatorCols) r 0 = false
    rw [downwardPropagate, if_neg (by omega), starredCopyCols_col_zero]
  · show plainSaturate (starredCopyCols ri unitIndicatorCols) r 0 = false
    rw [plainSaturate, if_neg (by omega), starredCopyCols_col_zero]
  · exact starredCopyCols_col_zero ri r

theorem allocationMatrix_col_one (pol : AllocationPolicy) (M : ℕ) (ri : ℕ → ℕ) (r : ℕ) :
    allocationMatrix pol M ri r 1 = decide (r = 0) := by
  cases pol
  · show downwardPropagate M (starredCopyCols ri unitIndicatorCols) r 1 = decide (r = 0)
    rw [downwardPropagate, if_neg (by omega), starredCopyCols_col_one]
  · show plainSaturate (starredCopyCols ri unitIndicatorCols) r 1 = decide (r = 0)
    rw [plainSaturate, if_neg (by omega), starredCopyCols_col_one]
  · exact starredCopyCols_col_one ri r

/-- Model 0 draws from partition 0 only, for every policy matrix. -/
theorem activePartitions_model_zero (pol : AllocationPolicy) (M : ℕ) (ri : ℕ → ℕ)
    (hM : 1 ≤ M) :
    activePartitions (allocationMatrix pol M ri) M 0 = [0] := by
  rw [activePartitions]
  apply filter_range_eq_singleton (by omega : 0 < M)
  intro r
  have h2 : (2 * 0 : ℕ) = 0 := rfl
  have h21 : (2 * 0 + 1 : ℕ) = 1 := rfl
  rw [h2, h21, allocationMatrix_col_zero, allocationMatrix_col_one]
  simp

theorem getD_map_mul_right (l : List ℚ) (c : ℚ) (k : ℕ) :
    (l.map (fun r => r * c)).getD k 0 = l.getD k 0 * c := by
  induction l generalizing k with
  | nil => simp
  | cons a t ih =>
      cases k with
      | zero => simp
      | succ k => simpa using ih k

theorem getD_nonneg_of_forall (l : List ℚ) (h : ∀ x ∈ l, 0 ≤ x) (k : ℕ) :
    0 ≤ l.getD k 0 := by
  rcases Nat.lt_or_ge k l.length with hk | hk
  · rw [List.getD_eq_getElem l 0 hk]
    exact h _ (List.getElem_mem hk)
  · rw [List.getD_eq_default l 0 hk]

theorem getD_pos_of_forall (l : List ℚ) (h : ∀ x ∈ l, 0 < x) (k : ℕ)
    (hk : k < l.length) : 0 < l.getD k 0 := by
  rw [List.getD_eq_getElem l 0 hk]
  exact h _ (List.getElem_mem hk)

theorem sum_map_filter_range_succ (q : ℕ → Bool) (g : ℕ → ℚ) (m : ℕ) :
    (((List.range (m + 1)).filter q).map g).sum
      = (if q 0 then g 0 else 0)
        + (((List.range m).filter (fun k => q (k + 1))).map (fun k => g (k + 1))).sum := by
  rw [List.range_succ_eq_map, List.filter_cons, List.filter_map]
  by_cases h0 : q 0
  · rw [if_pos h0, if_pos h0, List.map_cons, List.sum_cons, List.map_map]
    rfl
  · rw [if_neg h0, if_neg h0, List.map_map, zero_add]
    rfl

theorem sum_map_range_succ (g : ℕ → ℚ) (m : ℕ) :
    ((List.range (m + 1)).map g).sum
      = g 0 + ((List.range m).map (fun k => g (k + 1))).sum := by
  rw [List.range_succ_eq_map, List.map_cons, List.sum_cons, List.map_map]
  rfl

/-- Nonnegativity of one `model_ratios` entry. -/
theorem modelRatiosEntry_nonneg (A : ℕ → ℕ → Bool) (M : ℕ) (ratios : List ℚ)
    (hrpos : ∀ r ∈ ratios, 0 ≤ r) (ii : ℕ) :
    0 ≤ modelRatiosEntry A M ratios ii := by
  rw [modelRatiosEntry]
  have hs : 0 ≤ (((List.range (M - 1)).filter
      (fun k => A (k + 1) (2 * ii) || A (k + 1) (2 * ii + 1))).map
      (fun k => ratios.getD k 0)).sum := by
    apply List.sum_nonneg
    intro x hx
    obtain ⟨j, _, rfl⟩ := List.mem_map.mp hx
    exact getD_nonneg_of_forall ratios hrpos j
  have hif : (0 : ℚ) ≤ if A 0 (2 * ii) || A 0 (2 * ii + 1) then 1 else 0 := by
    split <;> norm_num
  linarith

/-- Core of C4: for any allocation matrix in which model 0 draws from
partition 0 only, the estimator cost implied by the partition counts derived
from the ratios is exactly the target cost. -/
theorem estimator_cost_eq_target (A : ℕ → ℕ → Bool) (M : ℕ) (costs : List ℚ)
    (targetCost : ℚ) (ratios : List ℚ) (hM : 1 ≤ M) (hcosts : costs.length = M)
    (hcpos : ∀ c ∈ costs, 0 < c) (hrpos : ∀ r ∈ ratios, 0 ≤ r)
    (hact0 : activePartitions A M 0 = [0]) :
    estimatorCostQ A M costs (npartitionSamplesFromRatios A M costs targetCost ratios)
      = targetCost := by
  obtain ⟨m1, rfl⟩ : ∃ m1, M = m1 + 1 := ⟨M - 1, by omega⟩
  have hm1 : (m1 + 1) - 1 = m1 := by omega
  -- the cost of the plan `N :: ratios * N` is linear in `N`
  have key : ∀ N : ℚ,
      estimatorCostQ A (m1 + 1) costs (N :: ratios.map (fun r => r * N))
        = (costs.getD 0 0 +
            ((List.range m1).map
              (fun k => modelRatiosEntry A (m1 + 1) ratios (k + 1)
                * costs.getD (k + 1) 0)).sum) * N := by
    intro N
    have h0 : nsamplesPerModelQ A (m1 + 1) (N :: ratios.map (fun r => r * N)) 0 = N := by
      rw [nsamplesPerModelQ, hact0]
      simp
    have hsucc : ∀ k, nsamplesPerModelQ A (m1 + 1) (N :: ratios.map (fun r => r * N)) (k + 1)
        = modelRatiosEntry A (m1 + 1) ratios (k + 1) * N := by
      intro k
      rw [nsamplesPerModelQ, activePartitions, sum_map_filter_range_succ]
      have hmap : ((List.range m1).filter
            (fun j => A (j + 1) (2 * (k + 1)) || A (j + 1) (2 * (k + 1) + 1))).map
            (fun j => (N :: ratios.map (fun r => r * N)).getD (j + 1) 0)
          = ((List.range m1).filter
            (fun j => A (j + 1) (2 * (k + 1)) || A (j + 1) (2 * (k + 1) + 1))).map
            (fun j => ratios.getD j 0 * N) := by
        apply List.map_congr_left
        intro j _
        rw [List.getD_cons_succ, getD_map_mul_right]
      rw [hmap, List.sum_map_mul_right, modelRatiosEntry, hm1, List.getD_cons_zero]
      by_cases hq : (A 0 (2 * (k + 1)) || A 0 (2 * (k + 1) + 1)) = true
      · rw [if_pos hq, if_pos hq]
        ring
      · rw [if_neg hq, if_neg hq]
        ring
    rw [estimatorCostQ, sum_map_range_succ, h0]
    have hmap2 : (List.range m1).map
          (fun k => nsamplesPerModelQ A (m1 + 1) (N :: ratios.map (fun r => r * N)) (k + 1)
            * costs.getD (k + 1) 0)
        = (List.range m1).map
          (fun k => (modelRatiosEntry A (m1 + 1) ratios (k + 1) * costs.getD (k + 1) 0) * N) := by
      apply List.map_congr_left
      intro k _
      rw [hsucc k]
      ring
    rw [hmap2, List.sum_map_mul_right]
    ring
  -- positivity of the denominator
  have hc0 : 0 < costs.getD 0 0 := getD_pos_of_forall costs hcpos 0 (by omega)
  have hsum : 0 ≤ ((List.range m1).map
      (fun k => modelRatiosEntry A (m1 + 1) ratios (k + 1) * costs.getD (k + 1) 0)).sum := by
    apply List.sum_nonneg
    intro x hx
    obtain ⟨k, hk, rfl⟩ := List.mem_map.mp hx
    have hkm : k < m1 := List.mem_range.mp hk
    exact mul_nonneg (modelRatiosEntry_nonneg A (m1 + 1) ratios hrpos (k + 1))
      (le_of_lt (getD_pos_of_forall costs hcpos (k + 1) (by omega)))
  have hDne : costs.getD 0 0 +
      ((List.range m1).map
        (fun k => modelRatiosEntry A (m1 + 1) ratios (k + 1) * costs.getD (k + 1) 0)).sum ≠ 0 := by
    intro hcontra
    linarith
  have hgoal := key (nhfFromPartitionRatios A (m1 + 1) costs targetCost ratios)
  refine Eq.trans hgoal ?_
  have hnhf : nhfFromPartitionRatios A (m1 + 1) costs targetCost ratios
      = targetCost / (costs.getD 0 0 +
          ((List.range m1).map
            (fun k => modelRatiosEntry A (m1 + 1) ratios (k + 1)
              * costs.getD (k + 1) 0)).sum) := by
    rw [nhfFromPartitionRatios, hm1]
  rw [hnhf, mul_div_cancel₀ targetCost hDne]

/-! ## C4 -/

/-- C4: for every target cost and nonnegative partition-ratios vector, the
high-fidelity partition count of the ACV estimator equals
`target_cost / (cost[0] + sum(model_ratio[m] * cost[m]))`, where
`model_ratio[m]` sums the ratios of the partitions active in model `m`'s
starred-or-plain columns plus 1 when partition 0 is active; the remaining
partition counts are `ratio * nhf`; and consequently the total cost implied by
those partition counts equals the target cost exactly. -/
theorem nhf_and_total_cost_from_partition_ratios (pol : AllocationPolicy) (M : ℕ)
    (ri : ℕ → ℕ) (costs : List ℚ) (targetCost : ℚ) (ratios : List ℚ)
    (hM : 1 ≤ M) (hcosts : costs.length = M)
    (hcpos : ∀ c ∈ costs, 0 < c) (hrpos : ∀ r ∈ ratios, 0 ≤ r) :
    (nhfFromPartitionRatios (allocationMatrix pol M ri) M costs targetCost ratios
      = targetCost / (costs.getD 0 0 +
          ((List.range (M - 1)).map (fun k =>
            modelRatiosEntry (allocationMatrix pol M ri) M ratios (k + 1)
              * costs.getD (k + 1) 0)).sum)) ∧
    (npartitionSamplesFromRatios (allocationMatrix pol M ri) M costs targetCost ratios
      = nhfFromPartitionRatios (allocationMatrix pol M ri) M costs targetCost ratios ::
          ratios.map (fun r =>
            r * nhfFromPartitionRatios (allocationMatrix pol M ri) M costs targetCost ratios)) ∧
    estimatorCostQ (allocationMatrix pol M ri) M costs
        (npartitionSamplesFromRatios (allocationMatrix pol M ri) M costs targetCost ratios)
      = targetCost :=
  ⟨rfl, rfl,
    estimator_cost_eq_target (allocationMatrix pol M ri) M costs targetCost ratios
      hM hcosts hcpos hrpos (activePartitions_model_zero pol M ri hM)⟩

theorem nhf_and_total_cost_from_partition_ratios_witness :
    estimatorCostQ (allocationMatrix AllocationPolicy.gmf 2 (fun _ => 0)) 2 [1, 1]
        (npartitionSamplesFromRatios (allocationMatrix AllocationPolicy.gmf 2 (fun _ => 0))
          2 [1, 1] 4 [1]) = 4 :=
  (nhf_and_total_cost_from_partition_ratios AllocationPolicy.gmf 2 (fun _ => 0) [1, 1] 4 [1]
    (by decide) (by decide) (by decide) (by decide)).2.2

/-! ## C7 -/

/-- C7: `_round_partition_ratios` raises exactly when the continuous
high-fidelity partition count is below `1 - 1e-8`; otherwise it returns the
ratios and achieved cost re-derived from the tolerant-floored integer counts
`floor(x + 1e-8)`, and the rounded high-fidelity count is at least 1.
The tolerant floor does not round numbers like `n - 1e-9` down. -/
theorem round_partition_ratios_spec (A : ℕ → ℕ → Bool) (M : ℕ) (costs : List ℚ)
    (targetCost : ℚ) (ratios : List ℚ) :
    ((npartitionSamplesFromRatios A M costs targetCost ratios).getD 0 0 < 1 - 1 / 100000000 →
      roundPartitionRatios A M costs targetCost ratios
        = Except.error RoundingError.hfSamplesZero) ∧
    (¬((npartitionSamplesFromRatios A M costs targetCost ratios).getD 0 0
        < 1 - 1 / 100000000) →
      roundPartitionRatios A M costs targetCost ratios
        = Except.ok
            (((flooredPartitionSamples A M costs targetCost ratios).drop 1).map
              (fun z => (z : ℚ) /
                (((flooredPartitionSamples A M costs targetCost ratios).getD 0 0 : ℤ) : ℚ)),
             estimatorCostQ A M costs
               ((flooredPartitionSamples A M costs targetCost ratios).map (fun z => (z : ℚ))))
        ∧ 1 ≤ (flooredPartitionSamples A M costs targetCost ratios).getD 0 0) ∧
    (∀ n : ℕ, ⌊((n : ℚ) - 1 / 1000000000) + 1 / 100000000⌋ = (n : ℤ)) := by
  refine ⟨?_, ?_, ?_⟩
  · intro h
    rw [roundPartitionRatios, if_pos h]
  · intro h
    refine ⟨by rw [roundPartitionRatios, if_neg h], ?_⟩
    have hfloor0 : (flooredPartitionSamples A M costs targetCost ratios).getD 0 0
        = ⌊(npartitionSamplesFromRatios A M costs targetCost ratios).getD 0 0
            + 1 / 100000000⌋ := by
      rw [flooredPartitionSamples]
      show ((nhfFromPartitionRatios A M costs targetCost ratios ::
          ratios.map (fun r => r * nhfFromPartitionRatios A M costs targetCost ratios)).map
            (fun x => ⌊x + 1 / 100000000⌋)).getD 0 0 = _
      rw [List.map_cons, List.getD_cons_zero]
      rfl
    rw [hfloor0, Int.le_floor]
    have hge := not_lt.mp h
    push_cast
    linarith
  · intro n
    apply Int.floor_eq_iff.mpr
    constructor
    · push_cast
      linarith
    · push_cast
      linarith

theorem round_partition_ratios_spec_witness :
    ¬((npartitionSamplesFromRatios (allocationMatrixGMF 2 (fun _ => 0)) 2 [1, 1] 4 [1]).getD 0 0
        < 1 - 1 / 100000000) ∧
      1 ≤ (flooredPartitionSamples (allocationMatrixGMF 2 (fun _ => 0)) 2 [1, 1] 4 [1]).getD 0 0 := by
  have hval : (npartitionSamplesFromRatios (allocationMatrixGMF 2 (fun _ => 0))
      2 [1, 1] 4 [1]).getD 0 0 = 4 / 3 := by
    simp +decide [npartitionSamplesFromRatios, nhfFromPartitionRatios, modelRatiosEntry,
      List.range_succ]
    norm_num
  have h : ¬((npartitionSamplesFromRatios (allocationMatrixGMF 2 (fun _ => 0))
      2 [1, 1] 4 [1]).getD 0 0 < 1 - 1 / 100000000) := by
    rw [hval]
    norm_num
  exact ⟨h,
    ((round_partition_ratios_spec (allocationMatrixGMF 2 (fun _ => 0)) 2 [1, 1] 4 [1]).2.1 h).2⟩

/-! ## Supporting lemmas for the partition round trip -/

theorem sliceLB_succ {α : Type} [Inhabited α] (v : List α) (off n : ℕ)
    (h : off < v.length) :
    sliceLB v off (n + 1) = v.getD off default :: sliceLB v (off + 1) n := by
  rw [sliceLB, sliceLB, List.drop_eq_getElem_cons h, List.take_succ_cons,
    List.getD_eq_getElem v default h]

theorem map_getD_range' {α : Type} [Inhabited α] (v : List α) :
    ∀ (n off : ℕ), off + n ≤ v.length →
      (List.range' off n).map (fun i => v.getD i default) = sliceLB v off n := by
  intro n
  induction n with
  | zero =>
      intro off _
      simp [sliceLB]
  | succ n ih =>
      intro off h
      rw [List.range'_succ, List.map_cons, sliceLB_succ v off n (by omega),
        ih (off + 1) (by omega)]

theorem sliceLB_zero_left {α : Type} (v : List α) (n : ℕ) :
    sliceLB v 0 n = v.take n := by
  rw [sliceLB, List.drop_zero]

theorem selJoin_shift {α : Type} (sel : ℕ → Bool) (p : List ℕ) (v : List α)
    (c : ℕ) : ∀ (js : List ℕ) (lb : ℕ),
      selJoin sel p v (c + lb) js = selJoin sel p (v.drop c) lb js := by
  intro js
  induction js with
  | nil => intro lb; rfl
  | cons j rest ih =>
      intro lb
      rw [selJoin, selJoin]
      have hd : v.drop (c + lb) = (v.drop c).drop lb := by
        rw [List.drop_drop, Nat.add_comm]
      have hs : sliceLB v (c + lb) (p.getD j 0) = sliceLB (v.drop c) lb (p.getD j 0) := by
        rw [sliceLB, sliceLB, hd]
      have ha : c + lb + p.getD j 0 = c + (lb + p.getD j 0) := by omega
      rw [hs, ha, ih (lb + p.getD j 0)]

theorem combineModelValues_filter {α : Type} (A : ℕ → ℕ → Bool) (p : List ℕ)
    (ii : ℕ) (starred plain : List α) : ∀ (js : List ℕ) (lb lb2 : ℕ),
      combineModelValues A p ii starred plain lb lb2 js
        = combineModelValues A p ii starred plain lb lb2
            (js.filter (fun j => A j (2 * ii) || A j (2 * ii + 1))) := by
  intro js
  induction js with
  | nil => intro lb lb2; rfl
  | cons j rest ih =>
      intro lb lb2
      by_cases h1 : A j (2 * ii) = true
      · rw [List.filter_cons_of_pos (by simp [h1]), combineModelValues,
          combineModelValues, if_pos h1, if_pos h1]
        by_cases h2 : A j (2 * ii + 1) = true
        · rw [if_pos h2, if_pos h2, ih]
        · rw [if_neg h2, if_neg h2, ih]
      · by_cases h2 : A j (2 * ii + 1) = true
        · rw [List.filter_cons_of_pos (by simp [h1, h2]), combineModelValues,
            combineModelValues, if_neg h1, if_neg h1, if_pos h2, if_pos h2, ih]
        · rw [List.filter_cons_of_neg (by simp [h1, h2]), combineModelValues,
            if_neg h1, if_neg h2, ih]

/-- Core of the partition round trip: combining the per-partition slices of a
model's value list (laid out over its active partitions `js`, with the starred
and plain subsets read at cursor offsets past arbitrary prefixes `s0`, `pl0`)
reassembles the value list. -/
theorem combineModelValues_selJoin {α : Type} (A : ℕ → ℕ → Bool) (p : List ℕ)
    (ii : ℕ) : ∀ (js : List ℕ) (v s0 pl0 : List α),
      (∀ j ∈ js, (A j (2 * ii) || A j (2 * ii + 1)) = true) →
      v.length = (js.map (fun j => p.getD j 0)).sum →
      combineModelValues A p ii
          (s0 ++ selJoin (fun j => A j (2 * ii)) p v 0 js)
          (pl0 ++ selJoin (fun j => A j (2 * ii + 1)) p v 0 js)
          s0.length pl0.length js
        = v := by
  intro js
  induction js with
  | nil =>
      intro v s0 pl0 _ hv
      simp only [List.map_nil, List.sum_nil] at hv
      rw [List.length_eq_zero] at hv
      rw [hv]
      rfl
  | cons j rest ih =>
      intro v s0 pl0 hact hv
      rw [List.map_cons, List.sum_cons] at hv
      have hjact := hact j (List.mem_cons_self j rest)
      have hTake : (v.take (p.getD j 0)).length = p.getD j 0 := by
        rw [List.length_take]; omega
      have hDrop : (v.drop (p.getD j 0)).length
          = (rest.map (fun j => p.getD j 0)).sum := by
        rw [List.length_drop]; omega
      have hact' : ∀ j' ∈ rest, (A j' (2 * ii) || A j' (2 * ii + 1)) = true :=
        fun j' hj' => hact j' (List.mem_cons_of_mem j hj')
      have hs1 : selJoin (fun j' => A j' (2 * ii)) p v 0 (j :: rest)
          = (if A j (2 * ii) then v.take (p.getD j 0) else []) ++
              selJoin (fun j' => A j' (2 * ii)) p (v.drop (p.getD j 0)) 0 rest := by
        rw [selJoin, sliceLB_zero_left,
          show (0 : ℕ) + p.getD j 0 = p.getD j 0 + 0 from by omega, selJoin_shift]
      have hs2 : selJoin (fun j' => A j' (2 * ii + 1)) p v 0 (j :: rest)
          = (if A j (2 * ii + 1) then v.take (p.getD j 0) else []) ++
              selJoin (fun j' => A j' (2 * ii + 1)) p (v.drop (p.getD j 0)) 0 rest := by
        rw [selJoin, sliceLB_zero_left,
          show (0 : ℕ) + p.getD j 0 = p.getD j 0 + 0 from by omega, selJoin_shift]
      rw [hs1, hs2]
      have hslice : ∀ (pre X : List α), sliceLB ((pre ++ v.take (p.getD j 0)) ++ X)
          pre.length (p.getD j 0) = v.take (p.getD j 0) := by
        intro pre X
        rw [sliceLB, List.append_assoc, List.drop_left]
        have htl := List.take_left (v.take (p.getD j 0)) X
        rw [hTake] at htl
        exact htl
      by_cases h1 : A j (2 * ii) = true
      · rw [if_pos h1]
        have hstar : s0 ++ (v.take (p.getD j 0) ++
            selJoin (fun j' => A j' (2 * ii)) p (v.drop (p.getD j 0)) 0 rest)
            = (s0 ++ v.take (p.getD j 0)) ++
                selJoin (fun j' => A j' (2 * ii)) p (v.drop (p.getD j 0)) 0 rest :=
          (List.append_assoc _ _ _).symm
        have hl1 : s0.length + p.getD j 0 = (s0 ++ v.take (p.getD j 0)).length := by
          rw [List.length_append, hTake]
        by_cases h2 : A j (2 * ii + 1) = true
        · rw [if_pos h2]
          rw [combineModelValues, if_pos h1, if_pos h2, hstar]
          have hplain : pl0 ++ (v.take (p.getD j 0) ++
              selJoin (fun j' => A j' (2 * ii + 1)) p (v.drop (p.getD j 0)) 0 rest)
              = (pl0 ++ v.take (p.getD j 0)) ++
                  selJoin (fun j' => A j' (2 * ii + 1)) p (v.drop (p.getD j 0)) 0 rest :=
            (List.append_assoc _ _ _).symm
          have hl2 : pl0.length + p.getD j 0 = (pl0 ++ v.take (p.getD j 0)).length := by
            rw [List.length_append, hTake]
          rw [hplain, hslice s0, hl1, hl2,
            ih (v.drop (p.getD j 0)) (s0 ++ v.take (p.getD j 0))
              (pl0 ++ v.take (p.getD j 0)) hact' hDrop]
          exact List.take_append_drop _ v
        · rw [if_neg h2, List.nil_append]
          rw [combineModelValues, if_pos h1, if_neg h2, hstar, hslice s0, hl1,
            ih (v.drop (p.getD j 0)) (s0 ++ v.take (p.getD j 0)) pl0 hact' hDrop]
          exact List.take_append_drop _ v
      · have h2 : A j (2 * ii + 1) = true := by
          rcases (Bool.or_eq_true _ _).mp hjact with h | h
          · exact absurd h h1
          · exact h
        rw [if_neg h1, List.nil_append, if_pos h2]
        rw [combineModelValues, if_neg h1, if_pos h2]
        have hplain : pl0 ++ (v.take (p.getD j 0) ++
            selJoin (fun j' => A j' (2 * ii + 1)) p (v.drop (p.getD j 0)) 0 rest)
            = (pl0 ++ v.take (p.getD j 0)) ++
                selJoin (fun j' => A j' (2 * ii + 1)) p (v.drop (p.getD j 0)) 0 rest :=
          (List.append_assoc _ _ _).symm
        have hl2 : pl0.length + p.getD j 0 = (pl0 ++ v.take (p.getD j 0)).length := by
          rw [List.length_append, hTake]
        rw [hplain, hslice pl0, hl2,
          ih (v.drop (p.getD j 0)) s0 (pl0 ++ v.take (p.getD j 0)) hact' hDrop]
        exact List.take_append_drop _ v

/-- The fancy-indexed `subset_indices` chunks of `_get_partition_indices_per_acv_subset`,
joined over the partitions selected by one column, equal the reference
per-partition slices of the model's own value list. -/
theorem selJoin_of_subsetIndices {α : Type} [Inhabited α] (p : List ℕ)
    (sel : ℕ → Bool) (v : List α) :
    ∀ (js : List ℕ) (lb : ℕ), js.Nodup →
      lb + (js.map (fun j => p.getD j 0)).sum ≤ v.length →
      ((js.filter sel).map
          (fun j => (((subsetIndicesFrom p lb js).lookup j).getD []).map
            (fun i => v.getD i default))).flatten
        = selJoin sel p v lb js := by
  intro js
  induction js with
  | nil => intro lb _ _; rfl
  | cons j rest ih =>
      intro lb hnd hlen
      rw [List.map_cons, List.sum_cons] at hlen
      have hnd' : rest.Nodup := (List.nodup_cons.mp hnd).2
      have hjnot : j ∉ rest := (List.nodup_cons.mp hnd).1
      have hlook_head : (subsetIndicesFrom p lb (j :: rest)).lookup j
          = some (List.range' lb (p.getD j 0)) := by
        rw [subsetIndicesFrom]
        simp [List.lookup]
      have hlook_rest : ∀ k ∈ rest.filter sel,
          (subsetIndicesFrom p lb (j :: rest)).lookup k
            = (subsetIndicesFrom p (lb + p.getD j 0) rest).lookup k := by
        intro k hk
        have hkr : k ∈ rest := List.mem_of_mem_filter hk
        have hkj : (k == j) = false := by
          rw [beq_nat_eq_decide]
          simp
          intro h
          exact hjnot (h ▸ hkr)
        rw [subsetIndicesFrom, List.lookup, hkj]
      have htail : (rest.filter sel).map
            (fun k => (((subsetIndicesFrom p lb (j :: rest)).lookup k).getD []).map
              (fun i => v.getD i default))
          = (rest.filter sel).map
            (fun k => (((subsetIndicesFrom p (lb + p.getD j 0) rest).lookup k).getD []).map
              (fun i => v.getD i default)) := by
        apply List.map_congr_left
        intro k hk
        rw [hlook_rest k hk]
      have hrec := ih (lb + p.getD j 0) hnd' (by omega)
      rw [selJoin]
      by_cases hs : sel j = true
      · rw [List.filter_cons_of_pos hs, List.map_cons, List.flatten_cons, hlook_head,
          htail, hrec, if_pos hs]
        have hhead : (List.range' lb (p.getD j 0)).map (fun i => v.getD i default)
            = sliceLB v lb (p.getD j 0) :=
          map_getD_range' v (p.getD j 0) lb (by omega)
        rw [Option.getD_some, hhead]
      · rw [List.filter_cons_of_neg hs, htail, hrec, if_neg hs, List.nil_append]

theorem getD_map_range {β : Type} (g : ℕ → β) (d : β) (n t : ℕ) (ht : t < n) :
    ((List.range n).map g).getD t d = g t := by
  rw [List.getD_eq_getElem _ _ (by simpa using ht)]
  simp

theorem flatten_pair_map_getD {β : Type} (f g : ℕ → List β) :
    ∀ (mm s t : ℕ), t < mm →
      ((((List.range' s mm).map (fun k => [f k, g k])).flatten.getD (2 * t) [] = f (s + t))
        ∧ (((List.range' s mm).map (fun k => [f k, g k])).flatten.getD (2 * t + 1) []
            = g (s + t))) := by
  intro mm
  induction mm with
  | zero => intro s t ht; omega
  | succ m ih =>
      intro s t ht
      rw [List.range'_succ, List.map_cons, List.flatten_cons, List.cons_append,
        List.cons_append, List.nil_append]
      cases t with
      | zero =>
          constructor
          · rw [show (2 * 0 : ℕ) = 0 from rfl, List.getD_cons_zero, Nat.add_zero]
          · rw [show (2 * 0 + 1 : ℕ) = 0 + 1 from rfl, List.getD_cons_succ,
              List.getD_cons_zero, Nat.add_zero]
      | succ t' =>
          obtain ⟨ih1, ih2⟩ := ih (s + 1) t' (by omega)
          constructor
          · rw [show 2 * (t' + 1) = 2 * t' + 1 + 1 from by ring, List.getD_cons_succ,
              List.getD_cons_succ, ih1, show s + 1 + t' = s + (t' + 1) from by omega]
          · rw [show 2 * (t' + 1) + 1 = 2 * t' + 1 + 1 + 1 from by ring,
              List.getD_cons_succ, List.getD_cons_succ, ih2,
              show s + 1 + t' = s + (t' + 1) from by omega]

theorem partitionIndicesPerAcvSubset_getD (A : ℕ → ℕ → Bool) (M : ℕ) (p : List ℕ)
    (k : ℕ) (hk : k < M - 1) :
    ((partitionIndicesPerAcvSubset A M p).getD (2 * (k + 1)) []
        = (acvSubsetIndexPair A M p (k + 1)).1)
      ∧ ((partitionIndicesPerAcvSubset A M p).getD (2 * (k + 1) + 1) []
        = (acvSubsetIndexPair A M p (k + 1)).2) := by
  obtain ⟨h1, h2⟩ := flatten_pair_map_getD
    (fun k => (acvSubsetIndexPair A M p (k + 1)).1)
    (fun k => (acvSubsetIndexPair A M p (k + 1)).2) (M - 1) 0 k hk
  have h1' : ((List.range' 0 (M - 1)).map (fun k =>
      [(acvSubsetIndexPair A M p (k + 1)).1,
        (acvSubsetIndexPair A M p (k + 1)).2])).flatten.getD (2 * k) []
      = (acvSubsetIndexPair A M p (k + 1)).1 := by simpa using h1
  have h2' : ((List.range' 0 (M - 1)).map (fun k =>
      [(acvSubsetIndexPair A M p (k + 1)).1,
        (acvSubsetIndexPair A M p (k + 1)).2])).flatten.getD (2 * k + 1) []
      = (acvSubsetIndexPair A M p (k + 1)).2 := by simpa using h2
  rw [partitionIndicesPerAcvSubset, List.cons_append, List.cons_append,
    List.nil_append, List.range_eq_range']
  constructor
  · rw [show 2 * (k + 1) = 2 * k + 1 + 1 from by ring, List.getD_cons_succ,
      List.getD_cons_succ, h1']
  · rw [show 2 * (k + 1) + 1 = 2 * k + 1 + 1 + 1 from by ring, List.getD_cons_succ,
      List.getD_cons_succ, h2']

theorem activePartitions_nodup (A : ℕ → ℕ → Bool) (M ii : ℕ) :
    (activePartitions A M ii).Nodup :=
  List.Nodup.filter _ (List.nodup_range M)

theorem filter_range_active (A : ℕ → ℕ → Bool) (M ii : ℕ) (c : ℕ)
    (hc : c = 2 * ii ∨ c = 2 * ii + 1) :
    (List.range M).filter (fun j => A j c)
      = (activePartitions A M ii).filter (fun j => A j c) := by
  rw [activePartitions, List.filter_filter]
  apply List.filter_congr
  intro a _
  rcases hc with rfl | rfl
  · cases h : A a (2 * ii) <;> simp [h]
  · cases h : A a (2 * ii + 1) <;> simp [h]

/-- Round trip for an abstract allocation matrix in which model 0 draws from
partition 0 only (true of all three policy builders). -/
theorem combine_separate_core {α : Type} [Inhabited α] (A : ℕ → ℕ → Bool)
    (M : ℕ) (p : List ℕ) (values : List (List α)) (hM : 1 ≤ M)
    (hp : p.length = M) (hv : values.length = M)
    (hact0 : activePartitions A M 0 = [0])
    (hlen : ∀ m, m < M → (values.getD m []).length = nsamplesPerModel A M p m) :
    combineAcvValues A M p (pairAcvValues M (separateValuesPerModel A M p values))
      = values := by
  have hflatlen : ∀ t, t < 2 * M →
      (separateValuesPerModel A M p values).getD t []
        = ((partitionIndicesPerAcvSubset A M p).getD t []).map
            (fun i => (values.getD (t / 2) []).getD i default) := by
    intro t ht
    rw [separateValuesPerModel]
    exact getD_map_range _ [] (2 * M) t ht
  -- model 0: the plain subset of model 0 is partition 0's range, i.e. all of
  -- the model's values
  have hmodel0 : ((pairAcvValues M (separateValuesPerModel A M p values)).getD 0
      ([], [])).2 = values.getD 0 [] := by
    have hpair : (pairAcvValues M (separateValuesPerModel A M p values)).getD 0 ([], [])
        = ((separateValuesPerModel A M p values).getD (2 * 0) [],
           (separateValuesPerModel A M p values).getD (2 * 0 + 1) []) := by
      rw [pairAcvValues]
      exact getD_map_range _ ([], []) M 0 (by omega)
    rw [hpair]
    show (separateValuesPerModel A M p values).getD (2 * 0 + 1) [] = values.getD 0 []
    rw [show (2 * 0 + 1 : ℕ) = 1 from rfl, hflatlen 1 (by omega)]
    have hidx : (partitionIndicesPerAcvSubset A M p).getD 1 []
        = (partitionIndices p).getD 0 [] := by
      rw [partitionIndicesPerAcvSubset, List.cons_append, List.cons_append,
        List.nil_append, show (1 : ℕ) = 0 + 1 from rfl, List.getD_cons_succ,
        List.getD_cons_zero]
    rw [hidx]
    obtain ⟨p0, p', rfl⟩ : ∃ p0 p', p = p0 :: p' := by
      cases p with
      | nil => rw [List.length_nil] at hp; omega
      | cons a t => exact ⟨a, t, rfl⟩
    have hpi : (partitionIndices (p0 :: p')).getD 0 [] = List.range' 0 p0 := by
      rw [partitionIndices, partitionIndicesFrom, List.getD_cons_zero]
    have hv0 : (values.getD 0 []).length = p0 := by
      rw [hlen 0 (by omega), nsamplesPerModel, hact0]
      simp
    rw [hpi, show (1 : ℕ) / 2 = 0 from rfl,
      map_getD_range' (values.getD 0 []) p0 0 (by rw [hv0]; omega),
      sliceLB_zero_left, ← hv0, List.take_length]
  -- models 1..M-1: combine reassembles the separated subsets
  have hmodel : ∀ k, k < M - 1 →
      combineModelValues A p (k + 1)
        ((pairAcvValues M (separateValuesPerModel A M p values)).getD (k + 1) ([], [])).1
        ((pairAcvValues M (separateValuesPerModel A M p values)).getD (k + 1) ([], [])).2
        0 0 (List.range M)
      = values.getD (k + 1) [] := by
    intro k hk
    have hpairk : (pairAcvValues M (separateValuesPerModel A M p values)).getD (k + 1)
        ([], [])
        = ((separateValuesPerModel A M p values).getD (2 * (k + 1)) [],
           (separateValuesPerModel A M p values).getD (2 * (k + 1) + 1) []) := by
      rw [pairAcvValues]
      exact getD_map_range _ ([], []) M (k + 1) (by omega)
    obtain ⟨hpi1, hpi2⟩ := partitionIndicesPerAcvSubset_getD A M p k hk
    have hst : (separateValuesPerModel A M p values).getD (2 * (k + 1)) []
        = ((acvSubsetIndexPair A M p (k + 1)).1).map
            (fun i => (values.getD (k + 1) []).getD i default) := by
      rw [hflatlen (2 * (k + 1)) (by omega), hpi1,
        show (2 * (k + 1)) / 2 = k + 1 from by omega]
    have hpl : (separateValuesPerModel A M p values).getD (2 * (k + 1) + 1) []
        = ((acvSubsetIndexPair A M p (k + 1)).2).map
            (fun i => (values.getD (k + 1) []).getD i default) := by
      rw [hflatlen (2 * (k + 1) + 1) (by omega), hpi2,
        show (2 * (k + 1) + 1) / 2 = k + 1 from by omega]
    have hvlen : (values.getD (k + 1) []).length
        = ((activePartitions A M (k + 1)).map (fun j => p.getD j 0)).sum := by
      rw [hlen (k + 1) (by omega), nsamplesPerModel]
    have hstar_eq : ((acvSubsetIndexPair A M p (k + 1)).1).map
          (fun i => (values.getD (k + 1) []).getD i default)
        = selJoin (fun j => A j (2 * (k + 1))) p (values.getD (k + 1) []) 0
            (activePartitions A M (k + 1)) := by
      show ((((List.range M).filter (fun j => A j (2 * (k + 1)))).map
          (fun j => ((subsetIndicesFrom p 0 (activePartitions A M (k + 1))).lookup j).getD
            [])).flatten).map (fun i => (values.getD (k + 1) []).getD i default) = _
      rw [List.map_flatten, List.map_map, filter_range_active A M (k + 1) _ (Or.inl rfl)]
      exact selJoin_of_subsetIndices p _ (values.getD (k + 1) [])
        (activePartitions A M (k + 1)) 0 (activePartitions_nodup A M (k + 1))
        (by rw [← hvlen]; omega)
    have hplain_eq : ((acvSubsetIndexPair A M p (k + 1)).2).map
          (fun i => (values.getD (k + 1) []).getD i default)
        = selJoin (fun j => A j (2 * (k + 1) + 1)) p (values.getD (k + 1) []) 0
            (activePartitions A M (k + 1)) := by
      show ((((List.range M).filter (fun j => A j (2 * (k + 1) + 1))).map
          (fun j => ((subsetIndicesFrom p 0 (activePartitions A M (k + 1))).lookup j).getD
            [])).flatten).map (fun i => (values.getD (k + 1) []).getD i default) = _
      rw [List.map_flatten, List.map_map, filter_range_active A M (k + 1) _ (Or.inr rfl)]
      exact selJoin_of_subsetIndices p _ (values.getD (k + 1) [])
        (activePartitions A M (k + 1)) 0 (activePartitions_nodup A M (k + 1))
        (by rw [← hvlen]; omega)
    rw [hpairk]
    show combineModelValues A p (k + 1)
        ((separateValuesPerModel A M p values).getD (2 * (k + 1)) [])
        ((separateValuesPerModel A M p values).getD (2 * (k + 1) + 1) [])
        0 0 (List.range M) = values.getD (k + 1) []
    rw [hst, hpl, hstar_eq, hplain_eq, combineModelValues_filter]
    exact combineModelValues_selJoin A p (k + 1)
      ((List.range M).filter (fun j => A j (2 * (k + 1)) || A j (2 * (k + 1) + 1)))
      (values.getD (k + 1) []) [] []
      (fun j hj => (List.mem_filter.mp hj).2) hvlen
  -- assemble the list equality entrywise
  apply List.ext_getElem
  · rw [combineAcvValues]
    simp only [List.length_cons, List.length_map, List.length_range]
    omega
  · intro t ht1 ht2
    have ht2' : t < M := by rw [hv] at ht2; exact ht2
    rw [← List.getD_eq_getElem (combineAcvValues A M p
        (pairAcvValues M (separateValuesPerModel A M p values))) [] ht1,
      ← List.getD_eq_getElem values [] ht2]
    cases t with
    | zero =>
        rw [combineAcvValues, List.getD_cons_zero, hmodel0]
    | succ k =>
        have hkM : k < M - 1 := by omega
        rw [combineAcvValues, List.getD_cons_succ,
          getD_map_range _ [] (M - 1) k hkM, hmodel k hkM]

/-! ## C2 -/

/-- C2: for every policy-built allocation matrix and every partition-counts
vector consistent with the frozen per-model sample counts, combining (via
`_combine_acv_values`) the per-model acv subsets produced by
`_separate_values_per_model` reproduces each model's value list exactly (in
particular, up to row order within a partition). -/
theorem combine_separate_acv_values_round_trip {α : Type} [Inhabited α]
    (pol : AllocationPolicy) (M : ℕ) (ri : ℕ → ℕ) (p : List ℕ)
    (values : List (List α)) (hM : 1 ≤ M) (hp : p.length = M)
    (hv : values.length = M)
    (hlen : ∀ m, m < M →
      (values.getD m []).length = nsamplesPerModel (allocationMatrix pol M ri) M p m) :
    combineAcvValues (allocationMatrix pol M ri) M p
        (pairAcvValues M (separateValuesPerModel (allocationMatrix pol M ri) M p values))
      = values :=
  combine_separate_core (allocationMatrix pol M ri) M p values hM hp hv
    (activePartitions_model_zero pol M ri hM) hlen

theorem combine_separate_acv_values_round_trip_witness :
    combineAcvValues (allocationMatrix AllocationPolicy.gmf 3 (fun _ => 0)) 3 [2, 1, 1]
        (pairAcvValues 3 (separateValuesPerModel
          (allocationMatrix AllocationPolicy.gmf 3 (fun _ => 0)) 3 [2, 1, 1]
          ([[10, 11], [20, 21, 22], [30, 31, 32, 33]] : List (List ℤ))))
      = [[10, 11], [20, 21, 22], [30, 31, 32, 33]] :=
  combine_separate_acv_values_round_trip AllocationPolicy.gmf 3 (fun _ => 0) [2, 1, 1]
    [[10, 11], [20, 21, 22], [30, 31, 32, 33]] (by decide) (by decide) (by decide)
    (by decide)

/-! ## Supporting lemmas for the bootstrap permutation table -/

theorem bootSubsetIndices_mono {σ : Type} (next : σ → ℕ → List ℕ × σ) (p : List ℕ) :
    ∀ (js : List ℕ) (lb : ℕ) (asg : ℕ → Option (List ℕ)) (s : σ) (k : ℕ)
      (perm : List ℕ), asg k = some perm →
      (bootSubsetIndices next p lb asg s js).2.1 k = some perm := by
  intro js
  induction js with
  | nil => intro lb asg s k perm h; exact h
  | cons idx rest ih =>
      intro lb asg s k perm h
      cases hidx : asg idx with
      | some q =>
          simp only [bootSubsetIndices, hidx]
          exact ih (lb + p.getD idx 0) asg s k perm h
      | none =>
          simp only [bootSubsetIndices, hidx]
          apply ih
          have hk : k ≠ idx := by
            intro hcontra
            rw [hcontra, hidx] at h
            exact Option.noConfusion h
          simp only [hk, if_neg, ite_false]
          exact h

theorem bootSubsetIndices_entries {σ : Type} (next : σ → ℕ → List ℕ × σ)
    (p : List ℕ) :
    ∀ (js : List ℕ) (lb : ℕ) (asg : ℕ → Option (List ℕ)) (s : σ),
      ∀ e ∈ (bootSubsetIndices next p lb asg s js).1,
        ∃ perm lb', (bootSubsetIndices next p lb asg s js).2.1 e.1 = some perm ∧
          e.2 = perm.map (fun t => (List.range' lb' (p.getD e.1 0)).getD t 0) := by
  intro js
  induction js with
  | nil =>
      intro lb asg s e he
      simp only [bootSubsetIndices, List.not_mem_nil] at he
  | cons idx rest ih =>
      intro lb asg s e he
      cases hidx : asg idx with
      | some q =>
          simp only [bootSubsetIndices, hidx] at he ⊢
          rcases List.mem_cons.mp he with rfl | he'
          · exact ⟨q, lb,
              bootSubsetIndices_mono next p rest (lb + p.getD idx 0) asg s idx q hidx,
              rfl⟩
          · exact ih (lb + p.getD idx 0) asg s e he'
      | none =>
          simp only [bootSubsetIndices, hidx] at he ⊢
          rcases List.mem_cons.mp he with rfl | he'
          · refine ⟨(next s (p.getD idx 0)).1, lb, ?_, rfl⟩
            apply bootSubsetIndices_mono
            simp
          · exact ih (lb + p.getD idx 0) _ (next s (p.getD idx 0)).2 e he'

theorem bootModelLoop_mono {σ : Type} (next : σ → ℕ → List ℕ × σ) (p : List ℕ)
    (A : ℕ → ℕ → Bool) (M : ℕ) :
    ∀ (iis : List ℕ) (asg : ℕ → Option (List ℕ)) (s : σ) (k : ℕ) (perm : List ℕ),
      asg k = some perm →
      (bootModelLoop next p A M iis asg s).2.1 k = some perm := by
  intro iis
  induction iis with
  | nil => intro asg s k perm h; exact h
  | cons ii rest ih =>
      intro asg s k perm h
      simp only [bootModelLoop]
      exact ih _ _ k perm
        (bootSubsetIndices_mono next p (activePartitions A M ii) 0 asg s k perm h)

theorem bootModelLoop_entries {σ : Type} (next : σ → ℕ → List ℕ × σ) (p : List ℕ)
    (A : ℕ → ℕ → Bool) (M : ℕ) :
    ∀ (iis : List ℕ) (asg : ℕ → Option (List ℕ)) (s : σ),
      ∀ assoc ∈ (bootModelLoop next p A M iis asg s).1, ∀ e ∈ assoc,
        ∃ perm lb', (bootModelLoop next p A M iis asg s).2.1 e.1 = some perm ∧
          e.2 = perm.map (fun t => (List.range' lb' (p.getD e.1 0)).getD t 0) := by
  intro iis
  induction iis with
  | nil =>
      intro asg s assoc hassoc
      simp only [bootModelLoop, List.not_mem_nil] at hassoc
  | cons ii rest ih =>
      intro asg s assoc hassoc e he
      simp only [bootModelLoop] at hassoc ⊢
      rcases List.mem_cons.mp hassoc with rfl | hassoc'
      · obtain ⟨perm, lb', hperm, hval⟩ :=
          bootSubsetIndices_entries next p (activePartitions A M ii) 0 asg s e he
        exact ⟨perm, lb', bootModelLoop_mono next p A M rest _ _ e.1 perm hperm, hval⟩
      · exact ih _ _ assoc hassoc' e he

/-! ## C8 -/

/-- C8: within one bootstrap replicate, a single per-partition permutation
table explains all acv subsets: each partition's uniform-with-replacement
permutation is drawn at most once (when first encountered) and the same
permutation, applied at the subset's own offset, produces the indices of that
partition in every acv subset containing it — model 0's plain subset
included.  The permutation is never redrawn per model. -/
theorem bootstrap_partition_permutation_reused {σ : Type}
    (next : σ → ℕ → List ℕ × σ) (p : List ℕ) (A : ℕ → ℕ → Bool) (M : ℕ) (s : σ) :
    ∃ table : ℕ → Option (List ℕ),
      (bootstrapSubsetIndices next p A M s).2.2.1 = table ∧
      (∃ perm0, table 0 = some perm0 ∧
        (bootstrapSubsetIndices next p A M s).1
          = perm0.map (fun t => (List.range' 0 (p.getD 0 0)).getD t 0)) ∧
      (∀ assoc ∈ (bootstrapSubsetIndices next p A M s).2.1, ∀ e ∈ assoc,
        ∃ perm lb, table e.1 = some perm ∧
          e.2 = perm.map (fun t => (List.range' lb (p.getD e.1 0)).getD t 0)) := by
  refine ⟨(bootstrapSubsetIndices next p A M s).2.2.1, rfl, ?_, ?_⟩
  · refine ⟨(next s (p.getD 0 0)).1, ?_, rfl⟩
    show (bootModelLoop next p A M (List.range' 1 (M - 1))
        (fun k => if k = 0 then some (next s (p.getD 0 0)).1 else none)
        (next s (p.getD 0 0)).2).2.1 0 = some (next s (p.getD 0 0)).1
    apply bootModelLoop_mono
    simp
  · intro assoc hassoc e he
    exact bootModelLoop_entries next p A M (List.range' 1 (M - 1))
      (fun k => if k = 0 then some (next s (p.getD 0 0)).1 else none)
      (next s (p.getD 0 0)).2 assoc hassoc e he

theorem bootstrap_partition_permutation_reused_witness :
    ∃ table : ℕ → Option (List ℕ),
      (bootstrapSubsetIndices (fun s n => (List.range n, s)) [2, 1]
          (allocationMatrix AllocationPolicy.gmf 2 (fun _ => 0)) 2 ()).2.2.1 = table ∧
      (∃ perm0, table 0 = some perm0 ∧
        (bootstrapSubsetIndices (fun s n => (List.range n, s)) [2, 1]
            (allocationMatrix AllocationPolicy.gmf 2 (fun _ => 0)) 2 ()).1
          = perm0.map (fun t => (List.range' 0 ([2, 1].getD 0 0)).getD t 0)) ∧
      (∀ assoc ∈ (bootstrapSubsetIndices (fun s n => (List.range n, s)) [2, 1]
          (allocationMatrix AllocationPolicy.gmf 2 (fun _ => 0)) 2 ()).2.1, ∀ e ∈ assoc,
        ∃ perm lb, table e.1 = some perm ∧
          e.2 = perm.map (fun t => (List.range' lb ([2, 1].getD e.1 0)).getD t 0)) :=
  bootstrap_partition_permutation_reused (fun s n => (List.range n, s)) [2, 1]
    (allocationMatrix AllocationPolicy.gmf 2 (fun _ => 0)) 2 ()
